import Mathlib

/-!
Verification of the core decoding and timestamp-reconciliation logic of the
MARM neural-data analysis scripts.

The embedding follows the Python sources:
  scripts/process_neural_data2.py  (decode_binary_files, decode_ble_log,
                                    create_failed_csv, SNIPPET_DURATION = 10)
  scripts/process_neural_data.py   (decode_binary_files, decode_ble_log)
  scripts/binarydecoder.py         (decode_binary_files, unsigned variant)

Conventions of the embedding:
  - a byte is a `Nat` below 256; a byte buffer is a `List Nat`;
  - Python integers are `Nat`/`Int` (they are arbitrary precision);
  - the float quantities (ADC_SCALE_FACTOR = 0.195, divisions by 1000.0,
    the snippet window arithmetic) are modelled exactly in `ℚ`;
  - the `bytes.fromhex` space-skipping feature is not modelled (no input in
    this development contains spaces inside a hex payload);
  - file reading is modelled by the list of bytes of the file; the loop
    `bin_file.read(36)` with its `len != 36` break becomes `readRecords`.
-/

namespace NeuralData

/-! ### Byte-level primitives (struct.unpack / struct.pack layouts) -/

/-- Interpretation of a 16-bit little-endian word as a signed integer,
as done by the format character h of struct.unpack. -/
def toInt16 (v : Nat) : Int := if v < 32768 then (v : Int) else (v : Int) - 65536

/-- The 16-bit unsigned word encoding a signed integer (struct.pack with h). -/
def fromInt16 (i : Int) : Nat := (i % 65536).toNat

/-- Little-endian byte serialisation of a 16-bit word. -/
def bytesOfU16 (v : Nat) : List Nat := [v % 256, v / 256 % 256]

/-- Little-endian byte serialisation of a 32-bit word. -/
def bytesOfU32 (v : Nat) : List Nat :=
  [v % 256, v / 256 % 256, v / 65536 % 256, v / 16777216 % 256]

/-- struct.unpack format 16H on 32 bytes: 16 little-endian unsigned 16-bit
values (binarydecoder.py line 37). -/
def decodeU16s : List Nat → List Nat
  | lo :: hi :: rest => (lo + 256 * hi) :: decodeU16s rest
  | _ => []

/-- struct.unpack format 16h on 32 bytes: 16 little-endian signed 16-bit
values (process_neural_data2.py line 89). -/
def decodeI16s : List Nat → List Int
  | lo :: hi :: rest => toInt16 (lo + 256 * hi) :: decodeI16s rest
  | _ => []

/-- struct.pack of a list of unsigned 16-bit values, little-endian. -/
def encodeU16s : List Nat → List Nat
  | [] => []
  | v :: vs => bytesOfU16 v ++ encodeU16s vs

/-- struct.pack of a list of signed 16-bit values, little-endian. -/
def encodeI16s : List Int → List Nat
  | [] => []
  | i :: rest => bytesOfU16 (fromInt16 i) ++ encodeI16s rest

/-- struct.unpack format I on 4 bytes: little-endian unsigned 32-bit value
(process_neural_data2.py line 90, binarydecoder.py line 38). -/
def decodeU32 : List Nat → Nat
  | b0 :: b1 :: b2 :: b3 :: _ => b0 + 256 * b1 + 65536 * b2 + 16777216 * b3
  | _ => 0

/-- A decoded 36-byte record in the signed-channel variant:
16 signed channel words from bytes 0..31, a 32-bit timestamp from
bytes 32..35. -/
structure RecordS where
  chans : List Int
  ts : Nat
deriving DecidableEq

/-- Decoding of one 36-byte record, signed variant
(process_neural_data2.py lines 89-90). -/
def decodeRecordS (bs : List Nat) : RecordS :=
  ⟨decodeI16s (bs.take 32), decodeU32 (bs.drop 32)⟩

/-- Re-packing of a decoded signed record in the same layout. -/
def encodeRecordS (r : RecordS) : List Nat := encodeI16s r.chans ++ bytesOfU32 r.ts

/-- Decoding of one 36-byte record, unsigned variant
(binarydecoder.py lines 37-38). -/
def decodeRecordU (bs : List Nat) : List Nat × Nat :=
  (decodeU16s (bs.take 32), decodeU32 (bs.drop 32))

/-- Re-packing of a decoded unsigned record in the same layout. -/
def encodeRecordU (p : List Nat × Nat) : List Nat := encodeU16s p.1 ++ bytesOfU32 p.2

/-! ### Round-trip lemmas for the byte-level codec -/

theorem bytesOfU16_split (lo hi : Nat) (hlo : lo < 256) (hhi : hi < 256) :
    bytesOfU16 (lo + 256 * hi) = [lo, hi] := by
  simp only [bytesOfU16, List.cons.injEq, and_true]
  omega

theorem fromInt16_toInt16 (v : Nat) (hv : v < 65536) : fromInt16 (toInt16 v) = v := by
  simp only [fromInt16, toInt16]
  split <;> omega

/-- Induction principle that walks a list two elements at a time. -/
theorem pair_induction {α : Type} (P : List α → Prop) (h0 : P []) (h1 : ∀ a, P [a])
    (h2 : ∀ a b l, P l → P (a :: b :: l)) : ∀ l, P l := by
  have key : ∀ l : List α, P l ∧ ∀ a, P (a :: l) := by
    intro l
    induction l with
    | nil => exact ⟨h0, h1⟩
    | cons b l ih => exact ⟨ih.2 b, fun a => h2 a b l ih.1⟩
  exact fun l => (key l).1

theorem encodeI16s_decodeI16s (l : List Nat) (hb : ∀ b ∈ l, b < 256)
    (he : l.length % 2 = 0) : encodeI16s (decodeI16s l) = l := by
  induction l using pair_induction with
  | h0 => rfl
  | h1 a => simp at he
  | h2 a b l ih =>
    have ha : a < 256 := hb a (by simp)
    have hbb : b < 256 := hb b (by simp)
    have hab : a + 256 * b < 65536 := by omega
    simp only [decodeI16s, encodeI16s, fromInt16_toInt16 _ hab,
      bytesOfU16_split a b ha hbb]
    have : encodeI16s (decodeI16s l) = l := by
      refine ih (fun x hx => hb x (by simp [hx])) ?_
      simp at he
      omega
    simp [this]

theorem encodeU16s_decodeU16s (l : List Nat) (hb : ∀ b ∈ l, b < 256)
    (he : l.length % 2 = 0) : encodeU16s (decodeU16s l) = l := by
  induction l using pair_induction with
  | h0 => rfl
  | h1 a => simp at he
  | h2 a b l ih =>
    have ha : a < 256 := hb a (by simp)
    have hbb : b < 256 := hb b (by simp)
    simp only [decodeU16s, encodeU16s, bytesOfU16_split a b ha hbb]
    have : encodeU16s (decodeU16s l) = l := by
      refine ih (fun x hx => hb x (by simp [hx])) ?_
      simp at he
      omega
    simp [this]

theorem bytesOfU32_decodeU32 (l : List Nat) (hlen : l.length = 4)
    (hb : ∀ b ∈ l, b < 256) : bytesOfU32 (decodeU32 l) = l := by
  match l, hlen with
  | [b0, b1, b2, b3], _ =>
    have h0 : b0 < 256 := hb b0 (by simp)
    have h1 : b1 < 256 := hb b1 (by simp)
    have h2 : b2 < 256 := hb b2 (by simp)
    have h3 : b3 < 256 := hb b3 (by simp)
    simp only [decodeU32, bytesOfU32, List.cons.injEq, and_true]
    omega

/-- C3: for every 36-byte buffer, decoding it as 16 little-endian 16-bit
channel values from bytes 0..31 plus a little-endian unsigned 32-bit
timestamp from bytes 32..35, and re-packing the decoded fields in the same
layout, reproduces the original buffer exactly; this holds for the signed
decoding of process_neural_data2.py and for the unsigned decoding of
binarydecoder.py alike. -/
theorem decode_encode_roundtrip (bs : List Nat) (hlen : bs.length = 36)
    (hb : ∀ b ∈ bs, b < 256) :
    encodeRecordS (decodeRecordS bs) = bs ∧ encodeRecordU (decodeRecordU bs) = bs := by
  have htake : (bs.take 32).length % 2 = 0 := by simp [hlen]
  have hbt : ∀ b ∈ bs.take 32, b < 256 := fun b h => hb b (List.mem_of_mem_take h)
  have hdrop : (bs.drop 32).length = 4 := by simp [hlen]
  have hbd : ∀ b ∈ bs.drop 32, b < 256 := fun b h => hb b (List.mem_of_mem_drop h)
  constructor
  · calc encodeRecordS (decodeRecordS bs)
        = encodeI16s (decodeI16s (bs.take 32)) ++ bytesOfU32 (decodeU32 (bs.drop 32)) := rfl
      _ = bs.take 32 ++ bs.drop 32 := by
          rw [encodeI16s_decodeI16s _ hbt htake, bytesOfU32_decodeU32 _ hdrop hbd]
      _ = bs := List.take_append_drop 32 bs
  · calc encodeRecordU (decodeRecordU bs)
        = encodeU16s (decodeU16s (bs.take 32)) ++ bytesOfU32 (decodeU32 (bs.drop 32)) := rfl
      _ = bs.take 32 ++ bs.drop 32 := by
          rw [encodeU16s_decodeU16s _ hbt htake, bytesOfU32_decodeU32 _ hdrop hbd]
      _ = bs := List.take_append_drop 32 bs

/-- A concrete 36-byte buffer for witnesses: 32 zero channel bytes followed
by the little-endian bytes of a 32-bit timestamp. -/
def recBytes (t : Nat) : List Nat := List.replicate 32 0 ++ bytesOfU32 t

theorem decode_encode_roundtrip_witness :
    ((recBytes 1500).length = 36 ∧ ∀ b ∈ recBytes 1500, b < 256)
    ∧ encodeRecordS (decodeRecordS (recBytes 1500)) = recBytes 1500
    ∧ encodeRecordU (decodeRecordU (recBytes 1500)) = recBytes 1500 :=
  ⟨⟨by decide, by decide⟩,
   decode_encode_roundtrip (recBytes 1500) (by decide) (by decide)⟩

/-! ### Timestamp reconciler (process_neural_data2.py, decode_binary_files,
lines 92-98)

    if timestamp < last_timestamp_ms:
        base_timestamp_ms += last_timestamp_ms
    timestamp_total_ms = timestamp + base_timestamp_ms
    timestamp_seconds = timestamp_total_ms / 1000.0
    last_timestamp_ms = timestamp_total_ms
-/

/-- One reconciler step: from state (base, last) and raw timestamp t,
returns (new base, emitted absolute ms); the emitted value is also the new
last_timestamp_ms. -/
def reconStep (base last t : Nat) : Nat × Nat :=
  let b := if t < last then base + last else base
  (b, t + b)

/-- The list of absolute-millisecond values emitted by the reconciler on a
raw timestamp sequence, starting from state (base, last). -/
def reconRun (base last : Nat) : List Nat → List Nat
  | [] => []
  | t :: ts =>
    let s := reconStep base last t
    s.2 :: reconRun s.1 s.2 ts

/-- The reconciler state (base_offset_ms, last_timestamp_ms) after a raw
timestamp sequence. -/
def reconFinal (base last : Nat) : List Nat → Nat × Nat
  | [] => (base, last)
  | t :: ts =>
    let s := reconStep base last t
    reconFinal s.1 s.2 ts

/-- C1 counterexample: from the initial state the raw sequence
[100, 200, 50, 80] does not produce the absolute-millisecond outputs
[100, 200, 250, 280] claimed by the spec: at the fourth step the code
compares 80 with last_timestamp_ms = 250 (the previous absolute value, not
the previous raw value) and accumulates the offset a second time. -/
theorem recon_example_not_as_spec :
    reconRun 0 0 [100, 200, 50, 80] ≠ [100, 200, 250, 280] := by decide

/-- C1 amended: from the initial state, the raw sequence [100, 200, 50, 80]
produces the emitted absolute-millisecond outputs [100, 200, 250, 530], and
the offset equals 200 after the drop from 200 to 50 (it is then raised to
450 at the step that sees 80 < 250). -/
theorem recon_example_actual :
    reconRun 0 0 [100, 200, 50, 80] = [100, 200, 250, 530]
    ∧ (reconFinal 0 0 [100, 200, 50]).1 = 200
    ∧ (reconFinal 0 0 [100, 200, 50, 80]).1 = 450 := by decide

/-- C10: for every reconciler state (base, last) and every raw timestamp t
with last ≤ t (including exact equality, since the rollover test is a strict
less-than), one reconciler step leaves the base offset unchanged and emits
t + base; a repeated timestamp never triggers an offset accumulation. -/
theorem recon_step_no_reset (base last t : Nat) (h : last ≤ t) :
    reconStep base last t = (base, t + base) := by
  simp [reconStep, Nat.not_lt.mpr h]

theorem recon_step_no_reset_witness :
    7 ≤ 7 ∧ reconStep 5 7 7 = (5, 12) :=
  ⟨by decide, recon_step_no_reset 5 7 7 (by decide)⟩

/-! ### Monotonicity of the reconciler output -/

theorem reconRun_ge_last (ts : List Nat) :
    ∀ base last, ∀ x ∈ reconRun base last ts, last ≤ x := by
  induction ts with
  | nil => intro base last x hx; simp [reconRun] at hx
  | cons t ts ih =>
    intro base last x hx
    simp only [reconRun, reconStep, List.mem_cons] at hx
    rcases hx with hx | hx
    · subst hx; split <;> omega
    · have h2 := ih _ _ x hx
      have : last ≤ t + if t < last then base + last else base := by split <;> omega
      omega

theorem reconRun_sorted (ts : List Nat) :
    ∀ base last, List.Sorted (· ≤ ·) (reconRun base last ts) := by
  induction ts with
  | nil => intro base last; simp [reconRun]
  | cons t ts ih =>
    intro base last
    simp only [reconRun, List.sorted_cons]
    exact ⟨fun b hb => reconRun_ge_last ts _ _ b hb, ih _ _⟩

/-! ### Output rows and the binary-file pipelines -/

/-- One row of the output table: the timestamp column followed by the 16
channel values (floats modelled in ℚ). -/
structure Row where
  t : ℚ
  chans : List ℚ
deriving DecidableEq

/-- ADC_SCALE_FACTOR = 0.195, modelled exactly. -/
def adcScale : ℚ := 195 / 1000

/-- Channel decoding plus scaling of the first 32 bytes of a record
(struct.unpack 16h followed by multiplication with ADC_SCALE_FACTOR). -/
def scaleChans (bs : List Nat) : List ℚ := (decodeI16s bs).map (fun v => (v : ℚ) * adcScale)

/-- Fuel-driven worker for `readRecords`; each iteration consumes 36 bytes,
so a fuel equal to the byte count suffices. -/
def readRecordsGo : Nat → List Nat → List (List Nat)
  | 0, _ => []
  | fuel + 1, bs => if bs.length < 36 then [] else bs.take 36 :: readRecordsGo fuel (bs.drop 36)

/-- The record list read from one binary file: the loop
`binary_data = bin_file.read(36); if not binary_data or len(binary_data) != 36: break`
yields the consecutive 36-byte chunks of the file, dropping any shorter
trailing fragment. -/
def readRecords (bs : List Nat) : List (List Nat) := readRecordsGo bs.length bs

/-- The raw 32-bit timestamp of a 36-byte record. -/
def recTs (rec : List Nat) : Nat := decodeU32 (rec.drop 32)

/-- The records of an ordered source sequence of binary files (the files are
given already sorted by their numeric suffix, as the code sorts them). -/
def allRecords (files : List (List Nat)) : List (List Nat) :=
  (files.map readRecords).flatten

/-- The decode loop of process_neural_data2.py decode_binary_files
(lines 84-104): decode each 36-byte record, reconcile its timestamp with
the running (base, last) state, and emit a row with the elapsed seconds and
the scaled channels. -/
def pnd2RowsGo (base last : Nat) : List (List Nat) → List Row
  | [] => []
  | rec :: recs =>
    let s := reconStep base last (recTs rec)
    ⟨(s.2 : ℚ) / 1000, scaleChans (rec.take 32)⟩ :: pnd2RowsGo s.1 s.2 recs

/-- All rows decoded from a source sequence by process_neural_data2.py
decode_binary_files, starting from base_timestamp_ms = 0 and
last_timestamp_ms = 0. -/
def pnd2BinRows (files : List (List Nat)) : List Row := pnd2RowsGo 0 0 (allRecords files)

/-- All rows decoded from a source sequence by process_neural_data.py
decode_binary_files (lines 54-71): each record independently yields
timestamp / 1000.0 and scaled channels, with no reconciliation state. -/
def pnd1BinRows (files : List (List Nat)) : List Row :=
  (allRecords files).map (fun rec => ⟨(recTs rec : ℚ) / 1000, scaleChans (rec.take 32)⟩)

/-! ### Snippet selection (process_neural_data2.py, lines 129-138) -/

/-- Minimum of the timestamp column of a nonempty table
(pandas df.min on the timestamp column; 0 for the empty table, unused). -/
def minT : List Row → ℚ
  | [] => 0
  | r :: rs => rs.foldl (fun m x => min m x.t) r.t

/-- Maximum of the timestamp column of a nonempty table. -/
def maxT : List Row → ℚ
  | [] => 0
  | r :: rs => rs.foldl (fun m x => max m x.t) r.t

/-- SNIPPET_DURATION of process_neural_data2.py. -/
def snippetWindow : ℚ := 10

/-- Snippet selection: if the total duration is below the window the whole
table is kept, otherwise the rows whose timestamp lies in the closed window
of length w centered at the midpoint are kept. -/
def snippetSelect (w : ℚ) (rows : List Row) : List Row :=
  let mn := minT rows
  let mx := maxT rows
  if mx - mn < w then rows
  else
    let mid := mn + (mx - mn) / 2
    rows.filter (fun r => decide (mid - w / 2 ≤ r.t ∧ r.t ≤ mid + w / 2))

/-- The failure-marker table written by create_failed_csv: the single column
named status with the single data value failed. -/
def failedCsv : List (List String) := [["status"], ["failed"]]

/-- process_neural_data2.py decode_binary_files, after the decode loop
(lines 112-158): empty row set, empty snippet and non-positive snippet
duration each produce the failure marker; otherwise the snippet table is
written. -/
def decodeBinaryFiles2 (files : List (List Nat)) : List (List String) ⊕ List Row :=
  let rows := pnd2BinRows files
  if rows = [] then Sum.inl failedCsv
  else
    let snip := snippetSelect snippetWindow rows
    if snip = [] then Sum.inl failedCsv
    else if maxT snip - minT snip ≤ 0 then Sum.inl failedCsv
    else Sum.inr snip

/-! ### Bounds for minT and maxT -/

theorem foldl_min_le_init (l : List Row) :
    ∀ a : ℚ, l.foldl (fun m x => min m x.t) a ≤ a := by
  induction l with
  | nil => intro a; simp
  | cons r rs ih =>
    intro a
    calc rs.foldl (fun m x => min m x.t) (min a r.t) ≤ min a r.t := ih _
      _ ≤ a := min_le_left _ _

theorem minT_le_of_mem (rows : List Row) (r : Row) (hr : r ∈ rows) :
    minT rows ≤ r.t := by
  match rows, hr with
  | q :: rs, hr =>
    simp only [minT]
    rcases List.mem_cons.mp hr with h | h
    · subst h; exact foldl_min_le_init rs _
    · clear hr
      induction rs generalizing q with
      | nil => simp at h
      | cons x rs ih =>
        rcases List.mem_cons.mp h with h | h
        · subst h
          calc rs.foldl (fun m x => min m x.t) (min q.t r.t)
              ≤ min q.t r.t := foldl_min_le_init rs _
            _ ≤ r.t := min_le_right _ _
        · have := ih (⟨min q.t x.t, []⟩ : Row) h
          simpa using this

theorem foldl_max_init_le (l : List Row) :
    ∀ a : ℚ, a ≤ l.foldl (fun m x => max m x.t) a := by
  induction l with
  | nil => intro a; simp
  | cons r rs ih =>
    intro a
    calc a ≤ max a r.t := le_max_left _ _
      _ ≤ rs.foldl (fun m x => max m x.t) (max a r.t) := ih _

theorem le_maxT_of_mem (rows : List Row) (r : Row) (hr : r ∈ rows) :
    r.t ≤ maxT rows := by
  match rows, hr with
  | q :: rs, hr =>
    simp only [maxT]
    rcases List.mem_cons.mp hr with h | h
    · subst h; exact foldl_max_init_le rs _
    · clear hr
      induction rs generalizing q with
      | nil => simp at h
      | cons x rs ih =>
        rcases List.mem_cons.mp h with h | h
        · subst h
          calc r.t ≤ max q.t r.t := le_max_right _ _
            _ ≤ rs.foldl (fun m x => max m x.t) (max q.t r.t) := foldl_max_init_le rs _
        · have := ih (⟨max q.t x.t, []⟩ : Row) h
          simpa using this

/-! ### The timestamp column of the decoded rows -/

theorem pnd2RowsGo_map_t (recs : List (List Nat)) :
    ∀ base last, (pnd2RowsGo base last recs).map Row.t
      = (reconRun base last (recs.map recTs)).map (fun n : Nat => (n : ℚ) / 1000) := by
  induction recs with
  | nil => intro base last; rfl
  | cons rec recs ih =>
    intro base last
    simp only [pnd2RowsGo, reconRun, List.map_cons, ih]

/-- C2: for every ordered sequence of binary files whose raw 32-bit record
timestamps are non-decreasing within each file (each new file's first
timestamp being a Nat is automatically nonnegative), the elapsed-time
column emitted by the reconciling decoder of process_neural_data2.py,
started from base_timestamp_ms = 0 and last_timestamp_ms = 0 and stepped
once per record, is monotonically non-decreasing. -/
theorem recon_monotone (files : List (List Nat))
    (h : ∀ f ∈ files, List.Chain' (· ≤ ·) ((readRecords f).map recTs)) :
    List.Sorted (· ≤ ·) ((pnd2BinRows files).map Row.t) := by
  rw [pnd2BinRows, pnd2RowsGo_map_t]
  refine List.Pairwise.map _ ?_ (reconRun_sorted _ 0 0)
  intro a b hab
  have hq : (a : ℚ) ≤ (b : ℚ) := by exact_mod_cast hab
  exact div_le_div_of_nonneg_right hq (by norm_num)

/-- Boolean check that a list of naturals is non-decreasing; a
kernel-reducible companion of Chain' for witness evaluation. -/
def nondecreasing : List Nat → Bool
  | [] => true
  | [_] => true
  | a :: b :: l => Nat.ble a b && nondecreasing (b :: l)

theorem chain'_of_nondecreasing :
    ∀ l : List Nat, nondecreasing l = true → List.Chain' (· ≤ ·) l := by
  intro l
  induction l with
  | nil => intro _; simp
  | cons a l ih =>
    cases l with
    | nil => intro _; simp
    | cons b l =>
      intro h
      simp only [nondecreasing, Bool.and_eq_true] at h
      exact List.chain'_cons.mpr ⟨Nat.le_of_ble_eq_true h.1, ih h.2⟩

theorem recon_monotone_witness :
    (∀ f ∈ [recBytes 100 ++ recBytes 200, recBytes 50],
        List.Chain' (· ≤ ·) ((readRecords f).map recTs))
    ∧ List.Sorted (· ≤ ·)
        ((pnd2BinRows [recBytes 100 ++ recBytes 200, recBytes 50]).map Row.t) := by
  have h : ∀ f ∈ [recBytes 100 ++ recBytes 200, recBytes 50],
      List.Chain' (· ≤ ·) ((readRecords f).map recTs) := by
    intro f hf
    apply chain'_of_nondecreasing
    rcases List.mem_cons.mp hf with h | h
    · subst h; decide
    · rcases List.mem_cons.mp h with h | h
      · subst h; decide
      · simp at h
  exact ⟨h, recon_monotone _ h⟩

/-- C6: for every source sequence from which zero records are decoded
(including one made of a single empty 0-byte file), decode_binary_files of
process_neural_data2.py terminates with the failure-marker table, a table
with the single column status and the single data value failed, and no
exception. -/
theorem empty_source_failed (files : List (List Nat))
    (h : allRecords files = []) :
    decodeBinaryFiles2 files = Sum.inl failedCsv
    ∧ failedCsv = [["status"], ["failed"]] := by
  constructor
  · simp [decodeBinaryFiles2, pnd2BinRows, h, pnd2RowsGo]
  · rfl

theorem empty_source_failed_witness :
    allRecords [[]] = []
    ∧ decodeBinaryFiles2 [[]] = Sum.inl failedCsv
    ∧ failedCsv = [["status"], ["failed"]] :=
  ⟨by decide, empty_source_failed [[]] (by decide)⟩

/-- C7: snippet selection with a 10-second window on a reconciled table
whose timestamps span 0 to 20 seconds keeps exactly the rows whose
timestamp lies in the closed interval from 5 to 15 (the window centered at
the midpoint). -/
theorem snippet_centered_window (rows : List Row)
    (hmn : minT rows = 0) (hmx : maxT rows = 20) :
    snippetSelect 10 rows = rows.filter (fun r => decide (5 ≤ r.t ∧ r.t ≤ 15)) := by
  rw [snippetSelect]
  simp only [hmn, hmx]
  rw [if_neg (by norm_num)]
  refine List.filter_congr ?_
  intro r _
  have : (0 : ℚ) + (20 - 0) / 2 - 10 / 2 = 5 := by norm_num
  have h2 : (0 : ℚ) + (20 - 0) / 2 + 10 / 2 = 15 := by norm_num
  rw [this, h2]

/-- A small concrete table for the C7 witness. -/
def rowsC7 : List Row := [⟨0, []⟩, ⟨7, []⟩, ⟨20, []⟩]

theorem snippet_centered_window_witness :
    (minT rowsC7 = 0 ∧ maxT rowsC7 = 20)
    ∧ snippetSelect 10 rowsC7 = rowsC7.filter (fun r => decide (5 ≤ r.t ∧ r.t ≤ 15)) :=
  ⟨⟨by decide, by decide⟩, snippet_centered_window rowsC7 (by decide) (by decide)⟩

/-- C8: for every nonempty reconciled table whose total duration equals the
configured window length exactly, snippet selection returns the entire
table: the code takes the filtering branch, but the window bounds coincide
with the minimum and maximum timestamps, so every row passes. -/
theorem snippet_full_when_duration_eq (w : ℚ) (rows : List Row) (hne : rows ≠ [])
    (hd : maxT rows - minT rows = w) : snippetSelect w rows = rows := by
  rw [snippetSelect]
  simp only [hd]
  rw [if_neg (lt_irrefl w)]
  refine List.filter_eq_self.mpr ?_
  intro r hr
  have h1 : minT rows ≤ r.t := minT_le_of_mem rows r hr
  have h2 : r.t ≤ maxT rows := le_maxT_of_mem rows r hr
  simp only [decide_eq_true_eq]
  constructor <;> linarith

/-- A small concrete table for the C8 witness. -/
def rowsC8 : List Row := [⟨1, []⟩, ⟨4, []⟩]

theorem snippet_full_when_duration_eq_witness :
    (rowsC8 ≠ [] ∧ maxT rowsC8 - minT rowsC8 = 3)
    ∧ snippetSelect 3 rowsC8 = rowsC8 := by
  have hd : maxT rowsC8 - minT rowsC8 = 3 := by
    norm_num [maxT, minT, rowsC8, max_def, min_def]
  exact ⟨⟨by decide, hd⟩, snippet_full_when_duration_eq 3 rowsC8 (by decide) hd⟩

/-- C9: in process_neural_data.py decode_binary_files, every emitted row
carries that record's own raw 32-bit millisecond timestamp divided by
1000.0, independent of every other record, and whenever a later record has
a smaller raw timestamp (a counter reset in a later file) its output
timestamp is strictly smaller than the earlier one. -/
theorem pnd1_timestamps_per_record (files : List (List Nat)) :
    (pnd1BinRows files).map Row.t
      = (allRecords files).map (fun rec => (recTs rec : ℚ) / 1000)
    ∧ ∀ i j : Nat, i < j → j < (allRecords files).length →
        recTs ((allRecords files).getD j []) < recTs ((allRecords files).getD i []) →
        ((pnd1BinRows files).getD j ⟨0, []⟩).t < ((pnd1BinRows files).getD i ⟨0, []⟩).t := by
  constructor
  · simp [pnd1BinRows]
  · intro i j hij hj hlt
    have hi : i < (allRecords files).length := lt_trans hij hj
    have hleni : i < (pnd1BinRows files).length := by
      simpa [pnd1BinRows] using hi
    have hlenj : j < (pnd1BinRows files).length := by
      simpa [pnd1BinRows] using hj
    rw [List.getD_eq_getElem _ _ hleni, List.getD_eq_getElem _ _ hlenj,
        List.getD_eq_getElem _ _ hi, List.getD_eq_getElem _ _ hj] at *
    simp only [pnd1BinRows, List.getElem_map]
    have hq : (recTs (allRecords files)[j] : ℚ) < (recTs (allRecords files)[i] : ℚ) := by
      exact_mod_cast hlt
    have h1000 : (0 : ℚ) < 1000 := by norm_num
    exact div_lt_div_of_pos_right hq h1000

theorem pnd1_timestamps_per_record_witness :
    (0 < 1 ∧ 1 < (allRecords [recBytes 1500, recBytes 100]).length
      ∧ recTs ((allRecords [recBytes 1500, recBytes 100]).getD 1 [])
          < recTs ((allRecords [recBytes 1500, recBytes 100]).getD 0 []))
    ∧ ((pnd1BinRows [recBytes 1500, recBytes 100]).getD 1 ⟨0, []⟩).t
        < ((pnd1BinRows [recBytes 1500, recBytes 100]).getD 0 ⟨0, []⟩).t :=
  ⟨⟨by decide, by decide, by decide⟩,
   (pnd1_timestamps_per_record [recBytes 1500, recBytes 100]).2 0 1
     (by decide) (by decide) (by decide)⟩

/-! ### BLE log-line decoding (decode_ble_log of process_neural_data2.py and
process_neural_data.py)

A line either fails the record regex (and is ignored) or matches with a
captured hex payload. The code then strips hyphens, parses the payload with
bytes.fromhex (which raises ValueError on a non-hex digit or an odd digit
count; that exception is only caught by the whole-file handler, which
writes the failure marker), and checks the byte count. -/

inductive LogLine where
  | noMatch
  | matched (payload : List Char)
deriving DecidableEq

/-- Value of one hex digit, or none for a non-hex character. -/
def hexDigit (c : Char) : Option Nat :=
  if '0' ≤ c ∧ c ≤ '9' then some (c.toNat - 48)
  else if 'a' ≤ c ∧ c ≤ 'f' then some (c.toNat - 87)
  else if 'A' ≤ c ∧ c ≤ 'F' then some (c.toNat - 55)
  else none

/-- bytes.fromhex: pairs of hex digits to bytes; none models the ValueError
raised on an odd digit count or a non-hex character. -/
def fromHex : List Char → Option (List Nat)
  | [] => some []
  | [_] => none
  | c1 :: c2 :: rest =>
    match hexDigit c1, hexDigit c2, fromHex rest with
    | some h, some l, some bs => some ((16 * h + l) :: bs)
    | _, _, _ => none

/-- data.replace of the hyphen separators with the empty string. -/
def stripHyphens (p : List Char) : List Char := p.filter (fun c => c != '-')

/-- The row built from a 36-byte payload by process_neural_data2.py
decode_ble_log (lines 206-217): scaled channels and the raw 32-bit
timestamp converted to seconds. -/
def bleRow (bs : List Nat) : Row :=
  ⟨(decodeU32 (bs.drop 32) : ℚ) / 1000, scaleChans (bs.take 32)⟩

/-- The row built from a payload of at least 36 bytes by
process_neural_data.py decode_ble_log (lines 128-137): scaled channels and
the raw 32-bit timestamp written as is, in milliseconds. -/
def bleRow1 (bs : List Nat) : Row :=
  ⟨(decodeU32 (bs.drop 32) : ℚ), scaleChans (bs.take 32)⟩

/-- The decode loop of process_neural_data2.py decode_ble_log
(lines 185-218): a non-matching line is ignored; an unparsable payload
raises (error); a parsed payload of a byte count other than 36 is skipped;
a 36-byte payload contributes one row. An error anywhere discards the
whole file. -/
def decodeBleRows2 : List LogLine → Except Unit (List Row)
  | [] => Except.ok []
  | LogLine.noMatch :: ls => decodeBleRows2 ls
  | LogLine.matched p :: ls =>
    match fromHex (stripHyphens p) with
    | none => Except.error ()
    | some bs =>
      if bs.length = 36 then
        match decodeBleRows2 ls with
        | Except.ok rows => Except.ok (bleRow bs :: rows)
        | Except.error e => Except.error e
      else decodeBleRows2 ls

/-- The decode loop of process_neural_data.py decode_ble_log
(lines 110-138): payloads shorter than 36 bytes are skipped; payloads
longer than 36 bytes raise struct.error in struct.unpack of the trailing
slice (error), as does an unparsable payload. -/
def decodeBleRows1 : List LogLine → Except Unit (List Row)
  | [] => Except.ok []
  | LogLine.noMatch :: ls => decodeBleRows1 ls
  | LogLine.matched p :: ls =>
    match fromHex (stripHyphens p) with
    | none => Except.error ()
    | some bs =>
      if bs.length < 36 then decodeBleRows1 ls
      else if bs.length = 36 then
        match decodeBleRows1 ls with
        | Except.ok rows => Except.ok (bleRow1 bs :: rows)
        | Except.error e => Except.error e
      else Except.error ()

/-- decode_ble_log of process_neural_data2.py as a whole: an exception or
an empty row set yields the failure marker; otherwise the snippet of the
decoded table is written (lines 220-247). -/
def decodeBleLog2 (lines : List LogLine) : List (List String) ⊕ List Row :=
  match decodeBleRows2 lines with
  | Except.error _ => Sum.inl failedCsv
  | Except.ok rows =>
    if rows = [] then Sum.inl failedCsv
    else
      let snip := snippetSelect snippetWindow rows
      if snip = [] then Sum.inl failedCsv
      else Sum.inr snip

/-- The row contributed by one log line in process_neural_data2.py, if any. -/
def lineRow2 : LogLine → Option Row
  | LogLine.noMatch => none
  | LogLine.matched p =>
    match fromHex (stripHyphens p) with
    | some bs => if bs.length = 36 then some (bleRow bs) else none
    | none => none

/-- The row contributed by one log line in process_neural_data.py, if any
(same selection, but the raw-millisecond row shape of that script). -/
def lineRow1 : LogLine → Option Row
  | LogLine.noMatch => none
  | LogLine.matched p =>
    match fromHex (stripHyphens p) with
    | some bs => if bs.length = 36 then some (bleRow1 bs) else none
    | none => none

/-- The raw 32-bit timestamp contributed by one log line, if any. -/
def lineTs2 : LogLine → Option Nat
  | LogLine.noMatch => none
  | LogLine.matched p =>
    match fromHex (stripHyphens p) with
    | some bs => if bs.length = 36 then some (decodeU32 (bs.drop 32)) else none
    | none => none

/-- Whether a line's payload is parsable as hex (true also for
non-matching lines). -/
def payloadOk : LogLine → Bool
  | LogLine.noMatch => true
  | LogLine.matched p => (fromHex (stripHyphens p)).isSome

/-- Whether a matched line's parsed payload has at most 36 bytes (true for
non-matching and unparsable lines). -/
def payloadLe36 : LogLine → Bool
  | LogLine.noMatch => true
  | LogLine.matched p =>
    match fromHex (stripHyphens p) with
    | some bs => Nat.ble bs.length 36
    | none => true

/-- A payload of two non-hex characters. -/
def badPayload : List Char := ['z', 'z']

/-- A parsable payload of 72 hex digits, giving 36 zero bytes. -/
def goodPayload : List Char := List.replicate 72 '0'

/-- The 36 zero bytes decoded from goodPayload. -/
def goodBytes : List Nat := List.replicate 36 0

/-- A parsable payload of 60 hex digits, giving 30 bytes, hence malformed
by length. -/
def shortPayload : List Char := List.replicate 60 '0'

/-- A parsable payload of 80 hex digits, giving 40 bytes, hence longer
than one record. -/
def longPayload : List Char := List.replicate 80 '0'

/-- C4 counterexample: a malformed line can abort the whole file. In
process_neural_data2.py a line whose payload is not parsable as hex raises
ValueError out of the loop and the file is marked failed, so the valid
line in the same file yields no output row, although alone it produces
one. In process_neural_data.py a parsed payload of 40 bytes (a byte count
other than 36 that is not caught by the len < 36 check) raises struct.error
and likewise fails the whole file, again losing the valid line that alone
produces a row. -/
theorem ble_malformed_aborts_file :
    (decodeBleLog2 [LogLine.matched badPayload, LogLine.matched goodPayload]
        = Sum.inl failedCsv
      ∧ decodeBleRows2 [LogLine.matched goodPayload] = Except.ok [bleRow goodBytes])
    ∧ (decodeBleRows1 [LogLine.matched longPayload, LogLine.matched goodPayload]
        = Except.error ()
      ∧ decodeBleRows1 [LogLine.matched goodPayload] = Except.ok [bleRow1 goodBytes]) :=
  ⟨⟨rfl, rfl⟩, rfl, rfl⟩

/-- C4 amended, per decoder. Provided every matched line's payload is
parsable as hex, the log-line decoder of process_neural_data2.py skips
exactly the lines whose payload decodes to a byte count other than 36 and
emits one row per remaining matched line, never aborting. The decoder of
process_neural_data.py does the same only when, in addition, no parsed
payload exceeds 36 bytes: it skips the shorter-than-36 payloads (a longer
payload raises struct.error and fails the whole file, and an unparsable
payload fails the whole file in both scripts; see the counterexample). -/
theorem ble_skip_malformed_length (lines : List LogLine)
    (h : ∀ l ∈ lines, payloadOk l = true) :
    decodeBleRows2 lines = Except.ok (lines.filterMap lineRow2)
    ∧ ((∀ l ∈ lines, payloadLe36 l = true) →
        decodeBleRows1 lines = Except.ok (lines.filterMap lineRow1)) := by
  induction lines with
  | nil => exact ⟨rfl, fun _ => rfl⟩
  | cons l ls ih =>
    have hls : ∀ x ∈ ls, payloadOk x = true := fun x hx => h x (List.mem_cons_of_mem _ hx)
    cases l with
    | noMatch =>
      refine ⟨by simpa [decodeBleRows2, lineRow2] using (ih hls).1, fun hle => ?_⟩
      have hle2 : ∀ x ∈ ls, payloadLe36 x = true :=
        fun x hx => hle x (List.mem_cons_of_mem _ hx)
      simpa [decodeBleRows1, lineRow1] using (ih hls).2 hle2
    | matched p =>
      have hp := h _ (List.mem_cons_self _ _)
      simp only [payloadOk] at hp
      obtain ⟨bs, hbs⟩ := Option.isSome_iff_exists.mp hp
      constructor
      · by_cases h36 : bs.length = 36
        · simp [decodeBleRows2, lineRow2, hbs, h36, (ih hls).1]
        · simp [decodeBleRows2, lineRow2, hbs, h36, (ih hls).1]
      · intro hle
        have hle2 : ∀ x ∈ ls, payloadLe36 x = true :=
          fun x hx => hle x (List.mem_cons_of_mem _ hx)
        have hlen : bs.length ≤ 36 := by
          have := hle _ (List.mem_cons_self _ _)
          simp only [payloadLe36, hbs] at this
          exact Nat.le_of_ble_eq_true this
        by_cases hlt : bs.length < 36
        · have h36 : bs.length ≠ 36 := Nat.ne_of_lt hlt
          simp [decodeBleRows1, lineRow1, hbs, hlt, h36, (ih hls).2 hle2]
        · have h36 : bs.length = 36 := Nat.le_antisymm hlen (Nat.not_lt.mp hlt)
          simp [decodeBleRows1, lineRow1, hbs, hlt, h36, (ih hls).2 hle2]

theorem ble_skip_malformed_length_witness :
    ((∀ l ∈ [LogLine.matched shortPayload, LogLine.matched goodPayload], payloadOk l = true)
      ∧ ∀ l ∈ [LogLine.matched shortPayload, LogLine.matched goodPayload],
          payloadLe36 l = true)
    ∧ decodeBleRows2 [LogLine.matched shortPayload, LogLine.matched goodPayload]
        = Except.ok
            ([LogLine.matched shortPayload, LogLine.matched goodPayload].filterMap lineRow2)
    ∧ decodeBleRows1 [LogLine.matched shortPayload, LogLine.matched goodPayload]
        = Except.ok
            ([LogLine.matched shortPayload, LogLine.matched goodPayload].filterMap lineRow1) := by
  have main := ble_skip_malformed_length
    [LogLine.matched shortPayload, LogLine.matched goodPayload] (by decide)
  exact ⟨⟨by decide, by decide⟩, main.1, main.2 (by decide)⟩

/-- C5 counterexample: the log-line variant of process_neural_data.py
writes the raw millisecond count in the timestamp column, not seconds: the
single valid record with raw timestamp 1500 ms produces a row whose
timestamp value is 1500, but the absolute millisecond value divided by
1000.0 is 1500 / 1000, and the two differ. -/
def pay1500 : List Char := List.replicate 64 '0' ++ ['d', 'c', '0', '5', '0', '0', '0', '0']

theorem pnd1_ble_timestamp_not_seconds :
    decodeBleRows1 [LogLine.matched pay1500] = Except.ok [bleRow1 (recBytes 1500)]
    ∧ (bleRow1 (recBytes 1500)).t = 1500
    ∧ recTs (recBytes 1500) = 1500
    ∧ (1500 : ℚ) ≠ 1500 / 1000 := by
  refine ⟨rfl, ?_, rfl, by norm_num⟩
  norm_num [bleRow1, recBytes, bytesOfU32, decodeU32]

theorem decodeBleRows2_map_t :
    ∀ (lines : List LogLine) (rows : List Row),
      decodeBleRows2 lines = Except.ok rows →
      rows.map Row.t = (lines.filterMap lineTs2).map (fun n : Nat => (n : ℚ) / 1000) := by
  intro lines
  induction lines with
  | nil =>
    intro rows h
    simp only [decodeBleRows2, Except.ok.injEq] at h
    subst h
    rfl
  | cons l ls ih =>
    intro rows h
    cases l with
    | noMatch =>
      simp only [decodeBleRows2] at h
      simpa [lineTs2] using ih rows h
    | matched p =>
      cases hfh : fromHex (stripHyphens p) with
      | none => simp [decodeBleRows2, hfh] at h
      | some bs =>
        by_cases h36 : bs.length = 36
        · cases hrec : decodeBleRows2 ls with
          | error e => simp [decodeBleRows2, hfh, h36, hrec] at h
          | ok rows2 =>
            simp only [decodeBleRows2, hfh, h36, hrec, if_true, Except.ok.injEq] at h
            subst h
            simp [lineTs2, hfh, h36, bleRow, ih rows2 hrec]
        · simp only [decodeBleRows2, hfh, if_neg h36] at h
          simpa [lineTs2, hfh, h36] using ih rows h

/-- C5 amended: in process_neural_data2.py, both pipeline variants put the
elapsed seconds, absolute milliseconds divided by 1000, in the timestamp
column: the binary-file rows carry the reconciled absolute milliseconds
over 1000, and the log-line rows carry the record's raw (absolute)
milliseconds over 1000. The log-line variant of process_neural_data.py is
excluded (see the counterexample). -/
theorem pnd2_rows_are_seconds (files : List (List Nat)) (lines : List LogLine)
    (rows : List Row) (hok : decodeBleRows2 lines = Except.ok rows) :
    (pnd2BinRows files).map Row.t
      = (reconRun 0 0 ((allRecords files).map recTs)).map (fun n : Nat => (n : ℚ) / 1000)
    ∧ rows.map Row.t = (lines.filterMap lineTs2).map (fun n : Nat => (n : ℚ) / 1000) :=
  ⟨pnd2RowsGo_map_t _ 0 0, decodeBleRows2_map_t lines rows hok⟩

theorem pnd2_rows_are_seconds_witness :
    decodeBleRows2 [LogLine.matched goodPayload] = Except.ok [bleRow goodBytes]
    ∧ ((pnd2BinRows [recBytes 100]).map Row.t
        = (reconRun 0 0 ((allRecords [recBytes 100]).map recTs)).map
            (fun n : Nat => (n : ℚ) / 1000)
      ∧ [bleRow goodBytes].map Row.t
          = ([LogLine.matched goodPayload].filterMap lineTs2).map
              (fun n : Nat => (n : ℚ) / 1000)) :=
  ⟨rfl, pnd2_rows_are_seconds [recBytes 100] [LogLine.matched goodPayload]
    [bleRow goodBytes] rfl⟩

end NeuralData
